import Mathlib

/-!
Verification of the `custom-printer` command encoder for thermal receipt
printers.  The development shallowly embeds the Rust sources (`src/lib.rs`)
into Lean: bytes are natural numbers (the bit operations `&&&`, `|||`, `>>>`
look only at the low 8 bits exactly as in the source), byte buffers are
`List Nat`, and operations that can panic in Rust (index / division by zero)
return `Option`.
-/

/-- Modes supported by `bit_image` (source `BitImageMode`). -/
inductive BitImageMode where
  | Dots8SingleDensity
  | Dots8DoubleDensity
  | Dots24SingleDensity
  | Dots24DoubleDensity
deriving DecidableEq

/-- Number of dot lines in a bank, from the `match mode` at the top of
`convert_bitmap_to_bitimage` (lib.rs lines 133-136). -/
def bankOf : BitImageMode → Nat
  | BitImageMode.Dots8SingleDensity | BitImageMode.Dots8DoubleDensity => 8
  | BitImageMode.Dots24SingleDensity | BitImageMode.Dots24DoubleDensity => 24

/-- Embedding of `CustomPrinter::convert_bitmap_to_bitimage` (lib.rs lines
126-158).  The three nested `for` loops become nested `List.foldl` over
`List.range`; `bitimage[dst] |= 0x80 >> (k % 8)` becomes a `List.set` at
`dst` (the destination index is always in bounds, proved below, so the
`getD`/`set` reading matches the Rust indexing, which would otherwise
panic). -/
def convert_bitmap_to_bitimage (width height : Nat) (bitmap : List Nat)
    (mode : BitImageMode) : List Nat :=
  let bank := bankOf mode
  let banks := (height + bank - 1) / bank
  let size := banks * (bank / 8) * width
  let step := width / 8
  (List.range banks).foldl (fun buf i =>
    (List.range width).foldl (fun buf j =>
      (List.range bank).foldl (fun buf k =>
        let src := i * step * bank + k * step + j / 8
        let dst := i * width * (bank / 8) + j * (bank / 8) + k / 8
        if src < bitmap.length ∧ bitmap.getD src 0 &&& (0x80 >>> (j % 8)) ≠ 0 then
          buf.set dst (buf.getD dst 0 ||| (0x80 >>> (k % 8)))
        else buf) buf) buf) (List.replicate size 0)

/-- The `(m, k)` pair computed in `bit_image` (lib.rs lines 206-211):
mode byte and number of image bytes per command call. -/
def mkOf (mode : BitImageMode) (width : Nat) : Nat × Nat :=
  match mode with
  | BitImageMode.Dots8SingleDensity => (0x00, width)
  | BitImageMode.Dots8DoubleDensity => (0x01, width)
  | BitImageMode.Dots24SingleDensity => (0x20, width * 3)
  | BitImageMode.Dots24DoubleDensity => (0x21, width * 3)

/-- The framing loop of `bit_image` (lib.rs lines 213-222): the bytes it
appends to the command buffer.  `(width % 256) as u8` and
`(width / 256) as u8` become `% 256`; the loop bound `bitimage.len() / k`
divides by `k`, which in Rust panics when `k == 0`, hence the `Option`. -/
def frameChunks (width : Nat) (bitimage : List Nat) (mode : BitImageMode) :
    Option (List Nat) :=
  let m := (mkOf mode width).1
  let k := (mkOf mode width).2
  if k = 0 then none
  else some ((List.range (bitimage.length / k)).foldl (fun cmd i =>
    cmd ++ [0x1B, 0x2A] ++ [m, width % 256, width / 256 % 256]
        ++ (bitimage.drop (i * k)).take k) [])

/-- The grayscale-to-1bpp loop of `bit_image` (lib.rs lines 186-193):
`bitmap` starts as `vec![0; samples.len() / 8]` and for each sample byte
equal to `0x00` the bit `0x80 >> (i % 8)` of `bitmap[i / 8]` is set.  The
Rust indexing `bitmap[i / 8]` panics when out of bounds (possible when the
sample count is not a multiple of 8), hence the `Option`. -/
def grayToBitmap (samples : List Nat) : Option (List Nat) :=
  (List.range samples.length).foldl (fun acc i =>
    match acc with
    | none => none
    | some bitmap =>
      if samples.getD i 0 = 0 then
        if i / 8 < bitmap.length then
          some (bitmap.set (i / 8) (bitmap.getD (i / 8) 0 ||| (0x80 >>> (i % 8))))
        else none
      else some bitmap) (some (List.replicate (samples.length / 8) 0))

/-- The result of decoding and grayscaling an image file: pixel width,
height and the 8-bit grayscale samples (the external `image` crate is out
of scope; only this interface is used). -/
structure GrayImage where
  width : Nat
  height : Nat
  samples : List Nat

/-- The printer's mutable state that the embedded operations act on: the
not-yet-flushed command buffer (`cmd: Vec<u8>` in `CustomPrinter`).  The
device file handle is modelled separately as a write function. -/
structure CustomPrinter where
  cmd : List Nat
deriving DecidableEq

/-- Embedding of `CustomPrinter::bit_image` (lib.rs lines 177-225).  The
external decode (`image::open(path)...grayscale()`) is abstracted as an
`Option GrayImage` argument: `none` models a decode failure, in which case
the function returns the error before touching the buffer.  The outer
`Option` models a panic (out-of-bounds bitmap write or `k == 0` division);
the inner pair is the new printer state together with the `Result`. -/
def bit_image (decoded : Option GrayImage) (mode : BitImageMode)
    (p : CustomPrinter) : Option (CustomPrinter × Except Unit Unit) :=
  match decoded with
  | none => some (p, Except.error ())
  | some img =>
    match grayToBitmap img.samples with
    | none => none
    | some bitmap =>
      let bitimage := convert_bitmap_to_bitimage img.width img.height bitmap mode
      match frameChunks img.width bitimage mode with
      | none => none
      | some bytes => some ({ cmd := p.cmd ++ bytes }, Except.ok ())

/-- Embedding of `CustomPrinter::run` (lib.rs lines 321-326).  The device
write `self.file.write_all(&self.cmd)` is abstracted as a function from the
written bytes to a result.  On error the `?` operator returns before
`self.cmd.clear()`, so the buffer is unchanged; on success the buffer is
cleared.  The returned pair is the post-state and the `Result`. -/
def run (write_all : List Nat → Except ε Unit) (p : CustomPrinter) :
    CustomPrinter × Except ε Unit :=
  match write_all p.cmd with
  | Except.error e => (p, Except.error e)
  | Except.ok _ => ({ cmd := [] }, Except.ok ())

example : convert_bitmap_to_bitimage 8 8 [0x80, 0, 0, 0, 0, 0, 0, 0]
    BitImageMode.Dots8SingleDensity = [0x80, 0, 0, 0, 0, 0, 0, 0] := by decide

example : convert_bitmap_to_bitimage 8 1 [0x00, 0x80]
    BitImageMode.Dots8SingleDensity = [0x40, 0, 0, 0, 0, 0, 0, 0] := by decide

example : frameChunks 8 [1, 2, 3, 4, 5, 6, 7, 8, 9, 10, 11, 12, 13, 14, 15, 16]
    BitImageMode.Dots8SingleDensity =
    some [0x1B, 0x2A, 0, 8, 0, 1, 2, 3, 4, 5, 6, 7, 8,
          0x1B, 0x2A, 0, 8, 0, 9, 10, 11, 12, 13, 14, 15, 16] := by decide

example : grayToBitmap [0, 255, 0, 0, 255, 255, 255, 255] = some [0xB0] := by decide

/-!
## Generic machinery: a fold of guarded `set`/`|||` writes

All three loops of interest (the transcoder's triple loop and the
binarization loop) are folds that OR a single mask into one byte of a
buffer per iteration.  `scatterOr` is that shape in general; its
`testBit` characterization below is the workhorse of the development.
-/

/-- A fold of guarded or-writes: for each `t` in `l` with `p t`, OR the
mask `g t` into byte `f t` of the buffer. -/
def scatterOr (p : α → Prop) [DecidablePred p] (f g : α → Nat) (l : List α)
    (buf : List Nat) : List Nat :=
  l.foldl (fun b t => if p t then b.set (f t) (b.getD (f t) 0 ||| g t) else b) buf

theorem scatterOr_nil (p : α → Prop) [DecidablePred p] (f g : α → Nat)
    (buf : List Nat) : scatterOr p f g [] buf = buf := rfl

theorem scatterOr_cons (p : α → Prop) [DecidablePred p] (f g : α → Nat)
    (t : α) (l : List α) (buf : List Nat) :
    scatterOr p f g (t :: l) buf =
      scatterOr p f g l
        (if p t then buf.set (f t) (buf.getD (f t) 0 ||| g t) else buf) := rfl

theorem scatterOr_length (p : α → Prop) [DecidablePred p] (f g : α → Nat)
    (l : List α) : ∀ buf : List Nat, (scatterOr p f g l buf).length = buf.length := by
  induction l with
  | nil => intro buf; rfl
  | cons t l ih =>
    intro buf
    rw [scatterOr_cons, ih]
    by_cases hp : p t <;> simp [hp]

theorem getD_set_self (l : List Nat) (i v : Nat) (h : i < l.length) :
    (l.set i v).getD i 0 = v := by
  simp [List.getD_eq_getElem?_getD, List.getElem?_set_self h]

theorem getD_set_other (l : List Nat) (i j v : Nat) (h : i ≠ j) :
    (l.set i v).getD j 0 = l.getD j 0 := by
  simp [List.getD_eq_getElem?_getD, List.getElem?_set_ne h]

theorem step_testBit (p : α → Prop) [DecidablePred p] (f g : α → Nat)
    (buf : List Nat) (t : α) (d b : Nat) :
    (Nat.testBit ((if p t then buf.set (f t) (buf.getD (f t) 0 ||| g t)
        else buf).getD d 0) b = true ↔
      (Nat.testBit (buf.getD d 0) b = true ∨
        (p t ∧ f t = d ∧ f t < buf.length ∧ Nat.testBit (g t) b = true))) := by
  by_cases hp : p t
  · by_cases hd : f t = d
    · subst hd
      by_cases hb : f t < buf.length
      · rw [if_pos hp, getD_set_self _ _ _ hb, Nat.testBit_lor]
        simp [hp, hb, Bool.or_eq_true]
      · rw [if_pos hp, List.set_eq_of_length_le (Nat.le_of_not_lt hb)]
        simp [hp, hb]
    · rw [if_pos hp, getD_set_other _ _ _ _ hd]
      simp [hp, hd]
  · rw [if_neg hp]
    simp [hp]

theorem scatterOr_testBit (p : α → Prop) [DecidablePred p] (f g : α → Nat)
    (l : List α) : ∀ (buf : List Nat) (d b : Nat),
    (Nat.testBit ((scatterOr p f g l buf).getD d 0) b = true ↔
      (Nat.testBit (buf.getD d 0) b = true ∨
        ∃ t ∈ l, p t ∧ f t = d ∧ f t < buf.length ∧ Nat.testBit (g t) b = true)) := by
  induction l with
  | nil => intro buf d b; simp [scatterOr_nil]
  | cons t l ih =>
    intro buf d b
    rw [scatterOr_cons, ih]
    have hlen : (if p t then buf.set (f t) (buf.getD (f t) 0 ||| g t)
        else buf).length = buf.length := by
      by_cases hp : p t <;> simp [hp]
    rw [hlen, step_testBit]
    simp only [List.mem_cons]
    constructor
    · rintro ((h | h) | ⟨t', ht', h⟩)
      · exact Or.inl h
      · exact Or.inr ⟨t, Or.inl rfl, h⟩
      · exact Or.inr ⟨t', Or.inr ht', h⟩
    · rintro (h | ⟨t', (rfl | ht'), h⟩)
      · exact Or.inl (Or.inl h)
      · exact Or.inl (Or.inr h)
      · exact Or.inr ⟨t', ht', h⟩

/-- The triple loop's iteration space `(i, j, k)` for
`i < a`, `j < b`, `k < c`, in the source's iteration order. -/
def tripleList (a b c : Nat) : List (Nat × Nat × Nat) :=
  (((List.range a).map fun i =>
      (((List.range b).map fun j =>
          (List.range c).map fun k => (i, j, k))).flatten)).flatten

theorem mem_tripleList {a b c : Nat} {t : Nat × Nat × Nat} :
    t ∈ tripleList a b c ↔ t.1 < a ∧ t.2.1 < b ∧ t.2.2 < c := by
  obtain ⟨i, j, k⟩ := t
  simp [tripleList, List.mem_flatten, List.mem_map, List.mem_range,
    Prod.ext_iff]
  aesop

/-- The transcoder's triple loop is a `scatterOr` over its iteration
space, with the source/destination indexing of lib.rs lines 148-151. -/
theorem convert_eq_scatterOr (W H : Nat) (bm : List Nat) (mode : BitImageMode) :
    convert_bitmap_to_bitimage W H bm mode =
      scatterOr
        (fun t : Nat × Nat × Nat =>
          t.1 * (W / 8) * bankOf mode + t.2.2 * (W / 8) + t.2.1 / 8 < bm.length ∧
          bm.getD (t.1 * (W / 8) * bankOf mode + t.2.2 * (W / 8) + t.2.1 / 8) 0 &&&
            (0x80 >>> (t.2.1 % 8)) ≠ 0)
        (fun t => t.1 * W * (bankOf mode / 8) + t.2.1 * (bankOf mode / 8) + t.2.2 / 8)
        (fun t => 0x80 >>> (t.2.2 % 8))
        (tripleList ((H + bankOf mode - 1) / bankOf mode) W (bankOf mode))
        (List.replicate (((H + bankOf mode - 1) / bankOf mode) * (bankOf mode / 8) * W) 0) := by
  simp only [convert_bitmap_to_bitimage, scatterOr, tripleList,
    List.foldl_flatten, List.foldl_map]

theorem getD_replicate_zero (n d : Nat) : (List.replicate n (0 : Nat)).getD d 0 = 0 := by
  simp only [List.getD_eq_getElem?_getD, List.getElem?_replicate]
  split <;> rfl

/-- Uniqueness of Euclidean decomposition: used to show that distinct loop
triples write to distinct output bits. -/
theorem mul_add_lt_inj {a a' b r r' : Nat} (hr : r < b) (hr' : r' < b)
    (h : a * b + r = a' * b + r') : a = a' ∧ r = r' := by
  have hb : 0 < b := Nat.lt_of_le_of_lt (Nat.zero_le r) hr
  have hdiv : ∀ x y, y < b → (x * b + y) / b = x := by
    intro x y hy
    rw [Nat.mul_comm, Nat.mul_add_div hb, Nat.div_eq_of_lt hy, Nat.add_zero]
  have hmod : ∀ x y, y < b → (x * b + y) % b = y := by
    intro x y hy
    rw [Nat.mul_comm, Nat.mul_add_mod, Nat.mod_eq_of_lt hy]
  refine ⟨?_, ?_⟩
  · have hq := congrArg (· / b) h
    simpa [hdiv _ _ hr, hdiv _ _ hr'] using hq
  · have hq := congrArg (· % b) h
    simpa [hmod _ _ hr, hmod _ _ hr'] using hq

/-- The destination index `i*W*B8 + j*B8 + q` determines `i`, `j`, `q`. -/
theorem dstIndex_inj {W B8 i i' j j' q q' : Nat} (hj : j < W) (hj' : j' < W)
    (hq : q < B8) (hq' : q' < B8)
    (h : i * W * B8 + j * B8 + q = i' * W * B8 + j' * B8 + q') :
    i = i' ∧ j = j' ∧ q = q' := by
  have h1 : (i * W + j) * B8 + q = (i' * W + j') * B8 + q' := by
    rw [Nat.add_mul, Nat.add_mul]; exact h
  obtain ⟨h2, h3⟩ := mul_add_lt_inj hq hq' h1
  obtain ⟨h4, h5⟩ := mul_add_lt_inj hj hj' h2
  exact ⟨h4, h5, h3⟩

/-- The destination index is within the allocated output size. -/
theorem dstIndex_lt {i j q a W B8 : Nat} (hi : i < a) (hj : j < W) (hq : q < B8) :
    i * W * B8 + j * B8 + q < a * B8 * W := by
  have h1 : i * W * B8 + j * B8 + q < (i * W + j + 1) * B8 := by
    rw [Nat.add_mul, Nat.add_mul, Nat.one_mul]; omega
  have h2 : (i * W + j + 1) * B8 ≤ a * W * B8 := by
    apply Nat.mul_le_mul_right
    calc i * W + j + 1 ≤ i * W + W := by omega
    _ = (i + 1) * W := by rw [Nat.add_mul, Nat.one_mul]
    _ ≤ a * W := Nat.mul_le_mul_right _ hi
  have h3 : a * W * B8 = a * B8 * W := by ring
  omega

theorem div8_lt_div8 {k bank : Nat} (hmode : bank = 8 ∨ bank = 24) (hk : k < bank) :
    k / 8 < bank / 8 := by
  rcases hmode with h | h <;> subst h <;> omega

theorem bankOf_cases (mode : BitImageMode) : bankOf mode = 8 ∨ bankOf mode = 24 := by
  cases mode <;> simp [bankOf]

/-- `0x80 >> r` for `r < 8` has exactly bit `7 - r` set. -/
theorem testBit_shift128 {r b : Nat} (hr : r < 8) :
    (Nat.testBit (0x80 >>> r) b = true ↔ b = 7 - r) := by
  rw [Nat.testBit_shiftRight]
  have h7 : (0x80 : Nat) = 2 ^ 7 := rfl
  rw [h7, Nat.testBit_two_pow]
  simp only [decide_eq_true_eq]
  omega

/-- Testing a bit with a mask: `x & (0x80 >> r) != 0` says exactly that
bit `7 - r` of `x` is set. -/
theorem and_shift128_ne {x r : Nat} (hr : r < 8) :
    (x &&& (0x80 >>> r) ≠ 0 ↔ Nat.testBit x (7 - r) = true) := by
  constructor
  · intro h
    by_contra hb
    apply h
    apply Nat.eq_of_testBit_eq
    intro i
    rw [Nat.testBit_land, Nat.zero_testBit]
    by_cases hi : i = 7 - r
    · subst hi
      have hx : Nat.testBit x (7 - r) = false := by
        cases hxb : Nat.testBit x (7 - r)
        · rfl
        · exact absurd hxb hb
      simp [hx]
    · have hm : Nat.testBit (0x80 >>> r) i = false := by
        cases hmb : Nat.testBit (0x80 >>> r) i
        · rfl
        · exact absurd ((testBit_shift128 hr).mp hmb) hi
      simp [hm]
  · intro h hz
    have hbit : Nat.testBit (x &&& (0x80 >>> r)) (7 - r) = true := by
      rw [Nat.testBit_land, h, (testBit_shift128 hr).mpr rfl]
      rfl
    rw [hz, Nat.zero_testBit] at hbit
    exact Bool.noConfusion hbit

/-- Length of the transcoder's output: the allocation
`vec![0; banks * (bank / 8) * width]` is never resized. -/
theorem convert_length (W H : Nat) (bm : List Nat) (mode : BitImageMode) :
    (convert_bitmap_to_bitimage W H bm mode).length =
      ((H + bankOf mode - 1) / bankOf mode) * (bankOf mode / 8) * W := by
  rw [convert_eq_scatterOr, scatterOr_length, List.length_replicate]

/-- Full bit-level characterization of the transcoder's output: bit `b` of
output byte `d` is set exactly when some loop triple `(i, j, k)` writes it,
i.e. when `d` and `b` are that triple's destination byte and bit position
and the triple's source bit is in bounds and set. -/
theorem convert_testBit (W H : Nat) (bm : List Nat) (mode : BitImageMode)
    (d b : Nat) :
    (Nat.testBit ((convert_bitmap_to_bitimage W H bm mode).getD d 0) b = true ↔
      ∃ i j k, i < (H + bankOf mode - 1) / bankOf mode ∧ j < W ∧ k < bankOf mode ∧
        (i * (W / 8) * bankOf mode + k * (W / 8) + j / 8 < bm.length ∧
          bm.getD (i * (W / 8) * bankOf mode + k * (W / 8) + j / 8) 0 &&&
            (0x80 >>> (j % 8)) ≠ 0) ∧
        d = i * W * (bankOf mode / 8) + j * (bankOf mode / 8) + k / 8 ∧
        b = 7 - k % 8) := by
  rw [convert_eq_scatterOr, scatterOr_testBit]
  rw [getD_replicate_zero]
  simp only [Nat.zero_testBit, Bool.false_eq_true, false_or]
  constructor
  · rintro ⟨⟨i, j, k⟩, hmem, hcond, hfd, _, hgb⟩
    obtain ⟨hi, hj, hk⟩ := mem_tripleList.mp hmem
    have hk8 : k % 8 < 8 := Nat.mod_lt _ (by omega)
    exact ⟨i, j, k, hi, hj, hk, hcond, hfd.symm, (testBit_shift128 hk8).mp hgb⟩
  · rintro ⟨i, j, k, hi, hj, hk, hcond, hd, hb⟩
    have hk8 : k % 8 < 8 := Nat.mod_lt _ (by omega)
    refine ⟨(i, j, k), mem_tripleList.mpr ⟨hi, hj, hk⟩, hcond, hd.symm, ?_,
      (testBit_shift128 hk8).mpr hb⟩
    rw [List.length_replicate]
    exact dstIndex_lt hi hj (div8_lt_div8 (bankOf_cases mode) hk)

/-- C1: for every width, height, bitmap and density mode, for each bank
index `i < banks`, pixel column `j < width` and dot line `k < bank`, bit
`0x80 >> (k % 8)` of output byte `i*width*(bank/8) + j*(bank/8) + k/8` is
set iff source byte `i*(width/8)*bank + k*(width/8) + j/8` is within the
bitmap and its bit `0x80 >> (j % 8)` is set; and every set output bit
arises from such a triple (all other output bits are zero). -/
theorem bit_placement_exact (W H : Nat) (bitmap : List Nat) (mode : BitImageMode) :
    (∀ i j k, i < (H + bankOf mode - 1) / bankOf mode → j < W → k < bankOf mode →
      ((convert_bitmap_to_bitimage W H bitmap mode).getD
          (i * W * (bankOf mode / 8) + j * (bankOf mode / 8) + k / 8) 0 &&&
          (0x80 >>> (k % 8)) ≠ 0 ↔
        (i * (W / 8) * bankOf mode + k * (W / 8) + j / 8 < bitmap.length ∧
          bitmap.getD (i * (W / 8) * bankOf mode + k * (W / 8) + j / 8) 0 &&&
            (0x80 >>> (j % 8)) ≠ 0))) ∧
    (∀ d b, Nat.testBit ((convert_bitmap_to_bitimage W H bitmap mode).getD d 0) b = true →
      ∃ i j k, i < (H + bankOf mode - 1) / bankOf mode ∧ j < W ∧ k < bankOf mode ∧
        d = i * W * (bankOf mode / 8) + j * (bankOf mode / 8) + k / 8 ∧
        b = 7 - k % 8) := by
  constructor
  · intro i j k hi hj hk
    have hk8 : k % 8 < 8 := Nat.mod_lt _ (by omega)
    rw [and_shift128_ne hk8, convert_testBit]
    constructor
    · rintro ⟨i', j', k', hi', hj', hk', hcond, hdeq, hbeq⟩
      have hq := div8_lt_div8 (bankOf_cases mode) hk
      have hq' := div8_lt_div8 (bankOf_cases mode) hk'
      obtain ⟨hii, hjj, hqq⟩ := dstIndex_inj hj hj' hq hq' hdeq
      have hkk : k' = k := by omega
      subst hii
      subst hjj
      subst hkk
      exact hcond
    · intro hcond
      exact ⟨i, j, k, hi, hj, hk, hcond, rfl, rfl⟩
  · intro d b hbit
    obtain ⟨i, j, k, hi, hj, hk, _, hd, hb⟩ :=
      (convert_testBit W H bitmap mode d b).mp hbit
    exact ⟨i, j, k, hi, hj, hk, hd, hb⟩

theorem bit_placement_exact_witness :
    (convert_bitmap_to_bitimage 8 8 [0x80, 0, 0, 0, 0, 0, 0, 0]
        BitImageMode.Dots8SingleDensity).getD 0 0 &&& (0x80 >>> (0 % 8)) ≠ 0 :=
  ((bit_placement_exact 8 8 [0x80, 0, 0, 0, 0, 0, 0, 0]
      BitImageMode.Dots8SingleDensity).1 0 0 0 (by decide) (by decide)
      (by decide)).mpr (by decide)

/-- C2: the transcoder returns exactly `banks * (bank/8) * width` bytes
where `bank` is 8 for the 8-dot modes and 24 for the 24-dot modes and
`banks = ceil(height/bank)`; when `height` is divisible by `bank` no
padding bank is introduced. -/
theorem bitimage_size (W H : Nat) (bitmap : List Nat) (mode : BitImageMode) :
    ((convert_bitmap_to_bitimage W H bitmap mode).length =
        ((H + bankOf mode - 1) / bankOf mode) * (bankOf mode / 8) * W) ∧
    (bankOf BitImageMode.Dots8SingleDensity = 8 ∧
      bankOf BitImageMode.Dots8DoubleDensity = 8 ∧
      bankOf BitImageMode.Dots24SingleDensity = 24 ∧
      bankOf BitImageMode.Dots24DoubleDensity = 24) ∧
    (H % bankOf mode = 0 →
      (H + bankOf mode - 1) / bankOf mode = H / bankOf mode) := by
  refine ⟨convert_length W H bitmap mode, ⟨rfl, rfl, rfl, rfl⟩, ?_⟩
  intro hdiv
  rcases bankOf_cases mode with h | h <;> rw [h] at hdiv ⊢ <;> omega

theorem bitimage_size_witness :
    (convert_bitmap_to_bitimage 8 16 [] BitImageMode.Dots8SingleDensity).length =
        ((16 + bankOf BitImageMode.Dots8SingleDensity - 1) /
            bankOf BitImageMode.Dots8SingleDensity) *
          (bankOf BitImageMode.Dots8SingleDensity / 8) * 8 ∧
    (16 + bankOf BitImageMode.Dots8SingleDensity - 1) /
        bankOf BitImageMode.Dots8SingleDensity =
      16 / bankOf BitImageMode.Dots8SingleDensity :=
  ⟨(bitimage_size 8 16 [] BitImageMode.Dots8SingleDensity).1,
    (bitimage_size 8 16 [] BitImageMode.Dots8SingleDensity).2.2 (by decide)⟩

/-- C4: the single- and double-density variants of the same bank size
produce byte-identical block buffers: the density bit never reaches the
reshape, which depends on the mode only through `bank`. -/
theorem density_invariance (W H : Nat) (bitmap : List Nat) :
    convert_bitmap_to_bitimage W H bitmap BitImageMode.Dots8SingleDensity =
      convert_bitmap_to_bitimage W H bitmap BitImageMode.Dots8DoubleDensity ∧
    convert_bitmap_to_bitimage W H bitmap BitImageMode.Dots24SingleDensity =
      convert_bitmap_to_bitimage W H bitmap BitImageMode.Dots24DoubleDensity :=
  ⟨rfl, rfl⟩

/-- C10: every destination index the transcoder writes
(`i*width*(bank/8) + j*(bank/8) + k/8` for in-range `i`, `j`, `k`) is
strictly below the allocated output size, so the loop body's indexing
never goes out of bounds (and the Lean embedding is total by
construction, for any width, height and bitmap). -/
theorem transcoder_dst_in_bounds (W H : Nat) (bitmap : List Nat)
    (mode : BitImageMode) (i j k : Nat)
    (hi : i < (H + bankOf mode - 1) / bankOf mode) (hj : j < W)
    (hk : k < bankOf mode) :
    i * W * (bankOf mode / 8) + j * (bankOf mode / 8) + k / 8 <
      (convert_bitmap_to_bitimage W H bitmap mode).length := by
  rw [convert_length]
  exact dstIndex_lt hi hj (div8_lt_div8 (bankOf_cases mode) hk)

theorem transcoder_dst_in_bounds_witness :
    0 * 7 * (bankOf BitImageMode.Dots24SingleDensity / 8) +
        6 * (bankOf BitImageMode.Dots24SingleDensity / 8) + 23 / 8 <
      (convert_bitmap_to_bitimage 7 25 [1, 2, 3]
          BitImageMode.Dots24SingleDensity).length :=
  transcoder_dst_in_bounds 7 25 [1, 2, 3] BitImageMode.Dots24SingleDensity
    0 6 23 (by decide) (by decide) (by decide)

/-- C3 counterexample: with `width = 8`, `height = 1` and a 2-byte bitmap,
dot line `k = 1` of bank 0 is a padding row (row index `1 ≥ height`), yet
its bit in the output is set, because the source read `src = 1` is still
within the over-long bitmap.  This refutes "rows beyond `height` always
transcode to unset bits regardless of bitmap length". -/
theorem padding_row_bit_set_counterexample :
    (convert_bitmap_to_bitimage 8 1 [0x00, 0x80]
        BitImageMode.Dots8SingleDensity).getD 0 0 &&& (0x80 >>> (1 % 8)) ≠ 0 := by
  decide

/-- C3 (amended): provided the bitmap is no longer than
`height * (width/8)` (its nominal size), every dot-line row index at or
beyond `height` transcodes to unset bits; the transcoder itself is total
for every bitmap length. -/
theorem padding_rows_blank (W H : Nat) (bitmap : List Nat) (mode : BitImageMode)
    (hlen : bitmap.length ≤ H * (W / 8)) (i j k : Nat)
    (hi : i < (H + bankOf mode - 1) / bankOf mode) (hj : j < W)
    (hk : k < bankOf mode) (hrow : H ≤ i * bankOf mode + k) :
    Nat.testBit ((convert_bitmap_to_bitimage W H bitmap mode).getD
        (i * W * (bankOf mode / 8) + j * (bankOf mode / 8) + k / 8) 0)
      (7 - k % 8) = false := by
  cases hb : Nat.testBit ((convert_bitmap_to_bitimage W H bitmap mode).getD
      (i * W * (bankOf mode / 8) + j * (bankOf mode / 8) + k / 8) 0)
      (7 - k % 8) with
  | false => rfl
  | true =>
    exfalso
    obtain ⟨i', j', k', hi', hj', hk', hcond, hdeq, hbeq⟩ :=
      (convert_testBit W H bitmap mode _ _).mp hb
    have hq := div8_lt_div8 (bankOf_cases mode) hk
    have hq' := div8_lt_div8 (bankOf_cases mode) hk'
    obtain ⟨hii, hjj, hqq⟩ := dstIndex_inj hj hj' hq hq' hdeq
    have hkk : k' = k := by omega
    obtain ⟨hsrc, _⟩ := hcond
    rw [← hii, ← hjj, hkk] at hsrc
    have hge : H * (W / 8) ≤ i * (W / 8) * bankOf mode + k * (W / 8) + j / 8 := by
      calc H * (W / 8) ≤ (i * bankOf mode + k) * (W / 8) :=
            Nat.mul_le_mul_right _ hrow
      _ = i * bankOf mode * (W / 8) + k * (W / 8) := by rw [Nat.add_mul]
      _ = i * (W / 8) * bankOf mode + k * (W / 8) := by ring_nf
      _ ≤ i * (W / 8) * bankOf mode + k * (W / 8) + j / 8 := Nat.le_add_right _ _
    omega

theorem padding_rows_blank_witness :
    Nat.testBit ((convert_bitmap_to_bitimage 8 1 [0xFF]
        BitImageMode.Dots8SingleDensity).getD 0 0) 6 = false :=
  padding_rows_blank 8 1 [0xFF] BitImageMode.Dots8SingleDensity (by decide)
    0 0 1 (by decide) (by decide) (by decide) (by decide)

/-- A left fold that appends a header-plus-payload per element is the
concatenation of the per-element pieces, in element order. -/
theorem foldl_frame_eq (l : List Nat) (u v : List Nat) (f : Nat → List Nat) :
    ∀ init : List Nat,
      l.foldl (fun acc i => acc ++ u ++ v ++ f i) init =
        init ++ (l.map fun i => u ++ v ++ f i).flatten := by
  induction l with
  | nil => intro init; simp
  | cons a l ih =>
    intro init
    rw [List.foldl_cons, ih]
    simp [List.append_assoc]

/-- For any block buffer of length exactly 65536 framed at width 65536 in
8-dot single density, the framing loop runs once and emits the 5-byte
header followed by the buffer: in particular the high column-count byte is
`(65536 / 256) % 256 = 0`. -/
theorem frameChunks_at_65536 : ∀ L : List Nat, L.length = 65536 →
    frameChunks 65536 L BitImageMode.Dots8SingleDensity =
      some (0x1B :: 0x2A :: 0x00 :: 0x00 :: 0x00 :: L.take 65536) := by
  intro L hL
  simp only [frameChunks, mkOf]
  rw [if_neg (by decide), hL]
  norm_num
  rw [show List.range 1 = [0] from by decide]
  simp

/-- C5 counterexample: at `width = 65536` the high column-count byte
emitted by the framing loop is `(width / 256) as u8 = 0`, not
`width / 256 = 256` as the claim's formula reads (256 does not fit a
byte), so byte 4 of the first framed command differs from `width / 256`. -/
theorem frame_width_byte_counterexample :
    ((frameChunks 65536 (List.replicate 65536 0)
        BitImageMode.Dots8SingleDensity).getD []).getD 4 0 ≠ 65536 / 256 := by
  rw [frameChunks_at_65536 (List.replicate 65536 0) (List.length_replicate _ _)]
  decide

/-- C5 (amended): when `k ≠ 0` (so the framing loop runs without a
division by zero), the framed bytes are exactly the concatenation, in bank
order, of chunks `0x1B 0x2A`, the mode byte `m`, the column count as two
little-endian bytes `width % 256` and `(width / 256) % 256` (the high byte
truncated to 8 bits), followed by `k` block-buffer bytes verbatim, with
`(m, k)` given by the mode table of lib.rs lines 206-211. -/
theorem frame_chunk_layout (width : Nat) (bitimage : List Nat)
    (mode : BitImageMode) (h : (mkOf mode width).2 ≠ 0) :
    (frameChunks width bitimage mode =
      some (((List.range (bitimage.length / (mkOf mode width).2)).map fun i =>
        [0x1B, 0x2A, (mkOf mode width).1, width % 256, width / 256 % 256] ++
          (bitimage.drop (i * (mkOf mode width).2)).take
            (mkOf mode width).2).flatten)) ∧
    mkOf BitImageMode.Dots8SingleDensity width = (0x00, width) ∧
    mkOf BitImageMode.Dots8DoubleDensity width = (0x01, width) ∧
    mkOf BitImageMode.Dots24SingleDensity width = (0x20, width * 3) ∧
    mkOf BitImageMode.Dots24DoubleDensity width = (0x21, width * 3) := by
  refine ⟨?_, rfl, rfl, rfl, rfl⟩
  simp only [frameChunks, if_neg h]
  rw [foldl_frame_eq]
  rfl

theorem frame_chunk_layout_witness :
    frameChunks 8 [1, 2, 3, 4, 5, 6, 7, 8] BitImageMode.Dots8DoubleDensity =
      some [0x1B, 0x2A, 0x01, 8, 0, 1, 2, 3, 4, 5, 6, 7, 8] := by
  rw [(frame_chunk_layout 8 [1, 2, 3, 4, 5, 6, 7, 8]
    BitImageMode.Dots8DoubleDensity (by decide)).1]
  rfl

/-- C6 counterexample: for a zero-width image of height 1, `banks = 1`,
but the framing loop's bound `bitimage.len() / k` divides by `k = 0` and
panics (modelled as `none`), so no command at all is appended — the
framed command count does not equal `banks`. -/
theorem frame_chunk_count_counterexample :
    (¬ ∃ cmds, frameChunks 0 (convert_bitmap_to_bitimage 0 1 []
        BitImageMode.Dots8SingleDensity) BitImageMode.Dots8SingleDensity =
          some cmds) ∧
    (1 + bankOf BitImageMode.Dots8SingleDensity - 1) /
        bankOf BitImageMode.Dots8SingleDensity = 1 := by
  constructor
  · rintro ⟨cmds, hc⟩
    simp [frameChunks, mkOf] at hc
  · decide

/-- C6 (amended): for positive width, the framing loop over the
transcoder's block buffer runs exactly `banks = ceil(height/bank)` times
— in both 8-dot (`k = width`) and 24-dot (`k = width*3`) modes each
command carries exactly one bank's worth (`(bank/8) * width` bytes) of
data — and the framing itself succeeds. -/
theorem frame_chunk_count (W H : Nat) (bitmap : List Nat)
    (mode : BitImageMode) (hW : 0 < W) :
    ((convert_bitmap_to_bitimage W H bitmap mode).length / (mkOf mode W).2 =
      (H + bankOf mode - 1) / bankOf mode) ∧
    (mkOf mode W).2 = bankOf mode / 8 * W ∧
    (frameChunks W (convert_bitmap_to_bitimage W H bitmap mode) mode).isSome
      = true := by
  have hk : (mkOf mode W).2 = bankOf mode / 8 * W := by
    cases mode <;> simp [mkOf, bankOf] <;> omega
  have hb8 : 0 < bankOf mode / 8 := by
    rcases bankOf_cases mode with h | h <;> rw [h] <;> decide
  have hkpos : 0 < (mkOf mode W).2 := by
    rw [hk]; exact Nat.mul_pos hb8 hW
  refine ⟨?_, hk, ?_⟩
  · rw [convert_length, hk, Nat.mul_assoc]
    exact Nat.mul_div_cancel _ (by rw [← hk]; exact hkpos)
  · simp only [frameChunks, if_neg (Nat.pos_iff_ne_zero.mp hkpos)]
    rfl

theorem frame_chunk_count_witness :
    ((convert_bitmap_to_bitimage 8 20 [] BitImageMode.Dots24SingleDensity).length /
        (mkOf BitImageMode.Dots24SingleDensity 8).2 =
      (20 + bankOf BitImageMode.Dots24SingleDensity - 1) /
        bankOf BitImageMode.Dots24SingleDensity) ∧
    (mkOf BitImageMode.Dots24SingleDensity 8).2 =
      bankOf BitImageMode.Dots24SingleDensity / 8 * 8 :=
  ⟨(frame_chunk_count 8 20 [] BitImageMode.Dots24SingleDensity (by decide)).1,
    (frame_chunk_count 8 20 [] BitImageMode.Dots24SingleDensity (by decide)).2.1⟩

/-- C7: `run` writes the entire command buffer to the channel; on success
the buffer is cleared (a subsequent flush with no new appends writes the
empty byte sequence), and on failure the error is returned with the
buffer byte-for-byte identical to its pre-flush state. -/
theorem run_flush (ε : Type) (w : List Nat → Except ε Unit) (p : CustomPrinter) :
    (∀ e, w p.cmd = Except.error e → run w p = (p, Except.error e)) ∧
    (w p.cmd = Except.ok () → run w p = ({ cmd := [] }, Except.ok ())) := by
  constructor
  · intro e he
    simp [run, he]
  · intro hok
    simp [run, hok]

theorem run_flush_witness :
    run (fun _ => (Except.ok () : Except Nat Unit)) { cmd := [1, 2, 3] } =
      ({ cmd := [] }, Except.ok ()) ∧
    run (fun _ => (Except.error 7 : Except Nat Unit)) { cmd := [1, 2, 3] } =
      ({ cmd := [1, 2, 3] }, Except.error 7) :=
  ⟨(run_flush Nat (fun _ => Except.ok ()) { cmd := [1, 2, 3] }).2 rfl,
    (run_flush Nat (fun _ => Except.error 7) { cmd := [1, 2, 3] }).1 7 rfl⟩

/-- C8: when the external decoder fails, `bit_image` surfaces the error
and appends nothing: the command buffer (including previously appended,
unflushed commands) is exactly its pre-call state. -/
theorem bit_image_decode_failure (mode : BitImageMode) (p : CustomPrinter) :
    bit_image none mode p = some (p, Except.error ()) := rfl

/-- Once the binarization fold has panicked (acc = `none`), it stays
`none`. -/
theorem grayFold_none (samples : List Nat) : ∀ l : List Nat,
    l.foldl (fun (acc : Option (List Nat)) (i : Nat) =>
      match acc with
      | none => none
      | some bitmap =>
        if samples.getD i 0 = 0 then
          if i / 8 < bitmap.length then
            some (bitmap.set (i / 8)
              (bitmap.getD (i / 8) 0 ||| (0x80 >>> (i % 8))))
          else none
        else some bitmap) none = none := by
  intro l
  induction l with
  | nil => rfl
  | cons a l ih => exact ih

/-- A successful binarization fold computes the same buffer as the
corresponding unguarded `scatterOr` (every executed write was in
bounds). -/
theorem grayFold_some (samples : List Nat) : ∀ (l : List Nat) (buf bm : List Nat),
    l.foldl (fun acc i =>
      match acc with
      | none => none
      | some bitmap =>
        if samples.getD i 0 = 0 then
          if i / 8 < bitmap.length then
            some (bitmap.set (i / 8)
              (bitmap.getD (i / 8) 0 ||| (0x80 >>> (i % 8))))
          else none
        else some bitmap) (some buf) = some bm →
    bm = scatterOr (fun i => samples.getD i 0 = 0) (fun i => i / 8)
      (fun i => 0x80 >>> (i % 8)) l buf := by
  intro l
  induction l with
  | nil =>
    intro buf bm h
    rw [scatterOr_nil]
    injection h with h
    exact h.symm
  | cons a l ih =>
    intro buf bm h
    rw [List.foldl_cons] at h
    by_cases hp : samples.getD a 0 = 0
    · by_cases hb : a / 8 < buf.length
      · have h' := h
        simp only [hp, hb, if_true, if_pos] at h'
        rw [scatterOr_cons, if_pos hp]
        exact ih _ _ h'
      · have h' := h
        simp only [hp, hb, if_true, if_false, ite_false] at h'
        rw [grayFold_none samples l] at h'
        exact absurd h' (by simp)
    · have h' := h
      simp only [hp, ite_false, if_neg] at h'
      rw [scatterOr_cons, if_neg hp]
      exact ih _ _ h'

/-- C9: in the grayscale-to-1bpp binarization of `bit_image`, a pixel's
bitmap bit is set if and only if its grayscale sample byte equals the
darkest value `0x00`; every other sample value leaves the bit unset. -/
theorem binarization_exact (samples bm : List Nat)
    (h : grayToBitmap samples = some bm) (i : Nat) (hi : i < samples.length)
    (hbyte : i / 8 < bm.length) :
    (bm.getD (i / 8) 0 &&& (0x80 >>> (i % 8)) ≠ 0 ↔ samples.getD i 0 = 0) := by
  have hbm := grayFold_some samples (List.range samples.length)
    (List.replicate (samples.length / 8) 0) bm h
  have hlen : bm.length = samples.length / 8 := by
    rw [hbm, scatterOr_length, List.length_replicate]
  have hi8 : i % 8 < 8 := Nat.mod_lt _ (by omega)
  rw [and_shift128_ne hi8, hbm, scatterOr_testBit, getD_replicate_zero]
  simp only [Nat.zero_testBit, Bool.false_eq_true, false_or,
    List.length_replicate, List.mem_range]
  constructor
  · rintro ⟨i', hi', hp', hf', _, hg'⟩
    have hi'8 : i' % 8 < 8 := Nat.mod_lt _ (by omega)
    have hbits := (testBit_shift128 hi'8).mp hg'
    have : i' = i := by omega
    rw [← this]
    exact hp'
  · intro hp
    refine ⟨i, hi, hp, rfl, ?_, (testBit_shift128 hi8).mpr rfl⟩
    omega

theorem binarization_exact_witness :
    ∃ bm, grayToBitmap [0, 255, 255, 255, 255, 255, 255, 255] = some bm ∧
      bm.getD 0 0 &&& (0x80 >>> (0 % 8)) ≠ 0 :=
  ⟨[0x80], by decide,
    (binarization_exact [0, 255, 255, 255, 255, 255, 255, 255] [0x80]
      (by decide) 0 (by decide) (by decide)).mpr (by decide)⟩
